import Mathlib

/-!
Verification of the recipe core of gw2-arbitrage (`src/recipe.rs`).

The embedding models:
  * the data types `RecipeSource`, `Recipe`, `api.RecipeIngredient`,
    `config.Discipline` and the two import conversions;
  * the recipe database (`HashMap<u32, Recipe>`) as an association list
    `RecipeDb` whose list order stands for the map's iteration order, with
    `getRecipe` as `recipes_map.get`;
  * the three depth-first traversals (`collect_ingredient_ids`,
    `collect_unknown_recipe_ids`, `mark_recursive_recipes`).  The Rust
    functions are general-recursive; they are embedded with a structural
    fuel argument returning `Option` (`none` = the call did not complete
    within the given recursion depth), plus adequacy lemmas showing which
    fuel suffices; a run of the Rust function corresponds to a fueled run
    that returns `some`.

Machine integers (`u32`) are modelled as `Nat`; none of the verified code
performs arithmetic that could overflow (identifiers and counts are only
compared and copied).
-/

namespace Gw2Arbitrage

namespace config

/-- Modelled from the spec: the crafting-discipline enumeration lives in
`config.rs`, which is not under `src/`; only membership of `Achievement`
matters to the verified code (spec 4.1), the other variants are those
mentioned by `recipe.rs`. -/
inductive Discipline where
  | Armorsmith
  | Artificer
  | Chef
  | Huntsman
  | Jeweler
  | Leatherworker
  | Scribe
  | Tailor
  | Weaponsmith
  | Achievement
deriving DecidableEq

end config

namespace api

/-- An ingredient entry of a recipe: `api::RecipeIngredient` (quantity
`count` of item `item_id`). -/
structure RecipeIngredient where
  item_id : Nat
  count : Nat
deriving DecidableEq

/-- Modelled from the spec: `api::Recipe` is defined in `api.rs`, which is
not under `src/`.  The record of the authoritative game-data service; the
two classification predicates used by the conversion in `recipe.rs`
("obtained by purchase", "automatic eligibility") are carried as fields. -/
structure Recipe where
  id : Nat
  output_item_id : Nat
  output_item_count : Nat
  disciplines : List config.Discipline
  ingredients : List RecipeIngredient
  purchased : Bool
  automatic : Bool
deriving DecidableEq

/-- Modelled from the spec: `api::Recipe::is_purchased` ("the record
indicates it was obtained by purchase"). -/
def Recipe.is_purchased (r : Recipe) : Bool := r.purchased

/-- Modelled from the spec: `api::Recipe::is_automatic` ("the record
indicates automatic eligibility"). -/
def Recipe.is_automatic (r : Recipe) : Bool := r.automatic

end api

namespace gw2efficiency

/-- Modelled from the spec: `gw2efficiency::Recipe` is defined in
`gw2efficiency.rs`, which is not under `src/`.  A community-data record;
`output_item_count` holds the result of parsing the declared output
quantity (`none` when it cannot be parsed as a positive integer), which is
how `recipe.rs` consumes it. -/
structure Recipe where
  name : String
  output_item_id : Nat
  output_item_count : Option Nat
  disciplines : List config.Discipline
  ingredients : List api.RecipeIngredient
deriving DecidableEq

end gw2efficiency

/-- The `RecipeSource` enum of `recipe.rs`. -/
inductive RecipeSource where
  | Automatic
  | Discoverable
  | Purchasable
  | Achievement
deriving DecidableEq

/-- The `Recipe` struct of `recipe.rs`. -/
structure Recipe where
  id : Option Nat
  output_item_id : Nat
  output_item_count : Nat
  disciplines : List config.Discipline
  ingredients : List api.RecipeIngredient
  source : RecipeSource
deriving DecidableEq

/-- The `impl From<api::Recipe> for Recipe` conversion of `recipe.rs`
(lines 29-47): infallible, purchase test first, then automatic, else
discoverable; the service identifier is kept. -/
def Recipe.from_api (recipe : api.Recipe) : Recipe :=
  { id := some recipe.id
    output_item_id := recipe.output_item_id
    output_item_count := recipe.output_item_count
    disciplines := recipe.disciplines
    ingredients := recipe.ingredients
    source :=
      if recipe.is_purchased then RecipeSource.Purchasable
      else if recipe.is_automatic then RecipeSource.Automatic
      else RecipeSource.Discoverable }

/-- The `impl TryFrom<gw2efficiency::Recipe> for Recipe` conversion of
`recipe.rs` (lines 49-83): fails naming the record when the output count
did not parse; classifies `Achievement` when the discipline set contains
`Achievement`, else `Automatic`; no identifier. -/
def Recipe.try_from_gw2efficiency (recipe : gw2efficiency.Recipe) :
    Except String Recipe :=
  match recipe.output_item_count with
  | none =>
    Except.error
      ("Ignoring '" ++ recipe.name ++
        "'. Failed to parse 'output_item_count' as integer.")
  | some count =>
    Except.ok
      { id := none
        output_item_id := recipe.output_item_id
        output_item_count := count
        disciplines := recipe.disciplines
        ingredients := recipe.ingredients
        source :=
          if recipe.disciplines.contains config.Discipline.Achievement then
            RecipeSource.Achievement
          else RecipeSource.Automatic }

/-- The `Recipe::is_automatic` method of `recipe.rs` (lines 108-117). -/
def Recipe.is_automatic (r : Recipe) : Bool :=
  match r.source with
  | RecipeSource.Purchasable | RecipeSource.Achievement => false
  | RecipeSource.Automatic | RecipeSource.Discoverable => true

/-- The comparator of `Recipe::sorted_ingredients` (lines 119-128):
`a` may precede `b` when the comparator does not answer `Greater`, that is
count descending, ties by item identifier descending. -/
def ingredientLE (a b : api.RecipeIngredient) : Bool :=
  decide (b.count < a.count ∨ (b.count = a.count ∧ b.item_id ≤ a.item_id))

/-- The `Recipe::sorted_ingredients` method of `recipe.rs` (lines
119-128): a new sequence sorted by the two-key comparator; the recipe's
own `ingredients` list is left untouched (the embedding is pure, so this
is by construction). -/
def Recipe.sorted_ingredients (r : Recipe) : List api.RecipeIngredient :=
  r.ingredients.mergeSort ingredientLE

/-- The recipe database: `HashMap<u32, Recipe>` keyed by produced item.
The association-list order models the map's iteration order. -/
abbrev RecipeDb := List (Nat × Recipe)

/-- The `recipes_map.get(&item_id)` lookup. -/
def getRecipe (db : RecipeDb) (item_id : Nat) : Option Recipe :=
  (db.find? (fun p => p.1 == item_id)).map (fun p => p.2)

/-- Well-formedness invariant of the recipe database (spec 3): each entry
is keyed by the item its recipe produces, and keys are unique. -/
def WFDb (db : RecipeDb) : Prop :=
  (∀ p ∈ db, p.2.output_item_id = p.1) ∧ (db.map Prod.fst).Nodup

instance : DecidablePred WFDb := by
  intro db
  unfold WFDb
  infer_instance

/-- One sweep of the ingredient loop of `Recipe::collect_ingredient_ids`
(`recipe.rs` lines 135-143): an already recorded item is skipped entirely;
otherwise it is recorded and, when the database stores a recipe producing
it, the walk descends through `visit` (the recursive call one fuel level
down). -/
def collectIngredientsFrom (visit : Recipe → List Nat → Option (List Nat))
    (db : RecipeDb) :
    List api.RecipeIngredient → List Nat → Option (List Nat)
  | [], ids => some ids
  | ing :: rest, ids =>
    if ing.item_id ∈ ids then collectIngredientsFrom visit db rest ids
    else
      match getRecipe db ing.item_id with
      | none => collectIngredientsFrom visit db rest (ids ++ [ing.item_id])
      | some recipe =>
        match visit recipe (ids ++ [ing.item_id]) with
        | none => none
        | some ids2 => collectIngredientsFrom visit db rest ids2

/-- The `Recipe::collect_ingredient_ids` method (lines 130-144), fuel
bounding the recursion depth: `none` means the bound was hit.
`collect_ingredient_ids_total` shows a sufficient fuel always exists, so
the Rust run is any fueled run returning `some`. -/
def Recipe.collect_ingredient_ids :
    Nat → RecipeDb → Recipe → List Nat → Option (List Nat)
  | 0, _, _, _ => none
  | fuel + 1, db, r, ids =>
    collectIngredientsFrom (Recipe.collect_ingredient_ids fuel db) db
      r.ingredients ids

/-- The insertion step at the top of `Recipe::collect_unknown_recipe_ids`
(lines 152-163): a present identifier that is not yet collected, whose
recipe is not automatic, and that the known-recipe set does not contain
(an absent set meaning none are known) is inserted. -/
def unknownStep (r : Recipe) (known_recipes : Option (Finset Nat))
    (unknown_recipes : Finset Nat) : Finset Nat :=
  match r.id with
  | none => unknown_recipes
  | some id =>
    if id ∈ unknown_recipes then unknown_recipes
    else if r.is_automatic then unknown_recipes
    else
      match known_recipes with
      | none => insert id unknown_recipes
      | some recipes =>
        if id ∈ recipes then unknown_recipes else insert id unknown_recipes

/-- The ingredient loop of `Recipe::collect_unknown_recipe_ids` (lines
165-171): recursion into every ingredient whose item the database can
produce, unconditionally. -/
def collectUnknownFrom (visit : Recipe → Finset Nat → Option (Finset Nat))
    (db : RecipeDb) :
    List api.RecipeIngredient → Finset Nat → Option (Finset Nat)
  | [], acc => some acc
  | ing :: rest, acc =>
    match getRecipe db ing.item_id with
    | none => collectUnknownFrom visit db rest acc
    | some recipe =>
      match visit recipe acc with
      | none => none
      | some acc2 => collectUnknownFrom visit db rest acc2

/-- The `Recipe::collect_unknown_recipe_ids` method (lines 146-172), fuel
bounding the recursion depth: `none` means the bound was hit.  The Rust
function has no cycle guard on its recursion, so here no fuel suffices on
a cyclic database (see `collect_unknown_never_completes_on_cycle`). -/
def Recipe.collect_unknown_recipe_ids :
    Nat → RecipeDb → Option (Finset Nat) → Recipe → Finset Nat →
      Option (Finset Nat)
  | 0, _, _, _, _ => none
  | fuel + 1, db, known_recipes, r, unknown_recipes =>
    collectUnknownFrom
      (Recipe.collect_unknown_recipe_ids fuel db known_recipes) db
      r.ingredients (unknownStep r known_recipes unknown_recipes)

/-- The ingredient loop of `mark_recursive_recipes_internal` (lines
506-524): an ingredient equal to the search target inserts the current
recipe's output item and stops this branch; an ingredient already on the
path stack is skipped; otherwise the walk descends with the ingredient
pushed onto the stack. -/
def markRecursiveFrom
    (visit : Nat → List Nat → Finset Nat → Option (Finset Nat))
    (search_output_item_id out : Nat) (stack : List Nat) :
    List api.RecipeIngredient → Finset Nat → Option (Finset Nat)
  | [], s => some s
  | ing :: rest, s =>
    if ing.item_id = search_output_item_id then some (insert out s)
    else if ing.item_id ∈ stack then
      markRecursiveFrom visit search_output_item_id out stack rest s
    else
      match visit ing.item_id (stack ++ [ing.item_id]) s with
      | none => none
      | some s2 => markRecursiveFrom visit search_output_item_id out stack rest s2

/-- The `mark_recursive_recipes_internal` function (lines 495-526), fuel
bounding the recursion depth: an item already in the result set is not
re-examined; an item the database cannot produce is a leaf. -/
def mark_recursive_recipes_internal :
    Nat → RecipeDb → Nat → Nat → List Nat → Finset Nat → Option (Finset Nat)
  | 0, _, _, _, _, _ => none
  | fuel + 1, db, search_output_item_id, item_id, stack, s =>
    if item_id ∈ s then some s
    else
      match getRecipe db item_id with
      | none => some s
      | some recipe =>
        markRecursiveFrom
          (mark_recursive_recipes_internal fuel db search_output_item_id)
          search_output_item_id recipe.output_item_id stack
          recipe.ingredients s

/-- The outer scan of `mark_recursive_recipes` (lines 481-493) over the
database entries in iteration order, threading the result set. -/
def markRecursiveList (fuel : Nat) (db : RecipeDb) :
    List (Nat × Recipe) → Finset Nat → Option (Finset Nat)
  | [], s => some s
  | (recipe_id, recipe) :: rest, s =>
    match
      mark_recursive_recipes_internal fuel db recipe.output_item_id
        recipe_id [] s
    with
    | none => none
    | some s2 => markRecursiveList fuel db rest s2

/-- The `mark_recursive_recipes` function (lines 481-493): scan every
`(item, recipe)` entry, searching from each for its own output item. -/
def mark_recursive_recipes (fuel : Nat) (db : RecipeDb) :
    Option (Finset Nat) :=
  markRecursiveList fuel db db ∅

/-- The item identifiers of a recipe's ingredient list. -/
def ingredientItemIds (r : Recipe) : List Nat :=
  r.ingredients.map (fun ing => ing.item_id)

/-- Production-graph reachability between items (spec 4.3/4.5): reflexive,
and one step goes from an item to an ingredient of the recipe the database
stores for that item ("j requires k"). -/
inductive Requires (db : RecipeDb) : Nat → Nat → Prop where
  | refl (i : Nat) : Requires db i i
  | step {i j k : Nat} (r : Recipe) (hr : getRecipe db i = some r)
      (hj : j ∈ ingredientItemIds r) (h : Requires db j k) : Requires db i k

/-- Spec 4.5: an item is recursive when there is a path in the production
graph from one of its own ingredients back to producing itself. -/
def Recursive (db : RecipeDb) (x : Nat) : Prop :=
  ∃ r, getRecipe db x = some r ∧ ∃ j ∈ ingredientItemIds r, Requires db j x

/-- The item identifiers reachable from an ingredient list through
producing recipes while never standing in `excl`: the accumulator handed
to `collect_ingredient_ids` acts as exactly this exclusion set. -/
inductive ReachableId (db : RecipeDb) (excl : List Nat)
    (ings : List api.RecipeIngredient) : Nat → Prop where
  | base {ing} (h : ing ∈ ings) (hx : ing.item_id ∉ excl) :
      ReachableId db excl ings ing.item_id
  | step {j : Nat} {r : Recipe} {ing} (hj : ReachableId db excl ings j)
      (hr : getRecipe db j = some r) (h : ing ∈ r.ingredients)
      (hx : ing.item_id ∉ excl) : ReachableId db excl ings ing.item_id

/-- The recipes of a production chain (spec 4.4): the root itself, and the
recipe the database stores for any ingredient of a chain recipe. -/
inductive ChainRecipe (db : RecipeDb) (root : Recipe) : Recipe → Prop where
  | refl : ChainRecipe db root root
  | step {r next : Recipe} {ing} (h : ChainRecipe db root r)
      (hi : ing ∈ r.ingredients) (hn : getRecipe db ing.item_id = some next) :
      ChainRecipe db root next

/-- The known-recipe set with absence read as the empty set (spec 3). -/
def knownIds : Option (Finset Nat) → Finset Nat
  | none => ∅
  | some s => s

/-- The recipe of the spec's end-to-end scenario producing item 10:
identifier 1, one ingredient (2 of item 20), purchasable. -/
def exRecipe10 : Recipe :=
  { id := some 1
    output_item_id := 10
    output_item_count := 1
    disciplines := [config.Discipline.Armorsmith]
    ingredients := [{ item_id := 20, count := 2 }]
    source := RecipeSource.Purchasable }

/-- The recipe of the spec's end-to-end scenario producing item 20:
identifier 2, one ingredient (1 of item 30), automatic. -/
def exRecipe20 : Recipe :=
  { id := some 2
    output_item_id := 20
    output_item_count := 1
    disciplines := [config.Discipline.Armorsmith]
    ingredients := [{ item_id := 30, count := 1 }]
    source := RecipeSource.Automatic }

/-- The spec's end-to-end database: 10 produced from 20, 20 produced from
30, 30 a raw leaf. -/
def chainDb : RecipeDb := [(10, exRecipe10), (20, exRecipe20)]

/-- Two-cycle: the recipe producing item 10 consumes item 20. -/
def cycRecipe10 : Recipe :=
  { id := none
    output_item_id := 10
    output_item_count := 1
    disciplines := [config.Discipline.Armorsmith]
    ingredients := [{ item_id := 20, count := 1 }]
    source := RecipeSource.Automatic }

/-- Two-cycle: the recipe producing item 20 consumes item 10. -/
def cycRecipe20 : Recipe :=
  { id := none
    output_item_id := 20
    output_item_count := 1
    disciplines := [config.Discipline.Armorsmith]
    ingredients := [{ item_id := 10, count := 1 }]
    source := RecipeSource.Automatic }

/-- The spec's two-cycle database (its last end-to-end scenario). -/
def cycleDb : RecipeDb := [(10, cycRecipe10), (20, cycRecipe20)]

/-- The two-cycle database enumerated in the opposite order. -/
def cycleDbRev : RecipeDb := [(20, cycRecipe20), (10, cycRecipe10)]

theorem ingredientLE_trans :
    ∀ a b c, ingredientLE a b → ingredientLE b c → ingredientLE a c := by
  intro a b c hab hbc
  simp only [ingredientLE, decide_eq_true_eq] at hab hbc ⊢
  omega

theorem ingredientLE_total : ∀ a b, ingredientLE a b || ingredientLE b a := by
  intro a b
  simp only [ingredientLE, Bool.or_eq_true, decide_eq_true_eq]
  omega

/-- C6: `sorted_ingredients` returns a permutation of the recipe's
ingredient collection, and every adjacent pair `(a, b)` of the output has
`a.count > b.count`, or `a.count = b.count` and `a.item_id ≥ b.item_id`.
The embedding is a pure function, so the recipe's own stored list is
untouched and repeated calls return the same sequence by construction. -/
theorem sorted_ingredients_spec (r : Recipe) :
    (r.sorted_ingredients).Perm r.ingredients ∧
    List.Chain'
      (fun a b : api.RecipeIngredient =>
        a.count > b.count ∨ (a.count = b.count ∧ a.item_id ≥ b.item_id))
      r.sorted_ingredients := by
  refine ⟨List.mergeSort_perm r.ingredients ingredientLE, ?_⟩
  have hp : (r.ingredients.mergeSort ingredientLE).Pairwise
      (fun a b => ingredientLE a b = true) :=
    List.sorted_mergeSort ingredientLE_trans ingredientLE_total r.ingredients
  refine List.Pairwise.chain' (List.Pairwise.imp ?_ hp)
  intro a b h
  simp only [ingredientLE, decide_eq_true_eq] at h
  omega

/-- C7: community-data conversion fails with a message containing the
record's name exactly when the declared output quantity did not parse as a
positive integer; otherwise it succeeds with no identifier, source
`Achievement` exactly when the discipline set contains `Achievement` and
`Automatic` otherwise, and the output item, output count, disciplines and
ingredients carried over unchanged. -/
theorem try_from_gw2efficiency_spec (rec : gw2efficiency.Recipe) :
    ((∃ e, Recipe.try_from_gw2efficiency rec = Except.error e) ↔
      rec.output_item_count = none) ∧
    (∀ e, Recipe.try_from_gw2efficiency rec = Except.error e →
      ∃ p q, e = p ++ rec.name ++ q) ∧
    (∀ R, Recipe.try_from_gw2efficiency rec = Except.ok R →
      R.id = none ∧
      R.output_item_id = rec.output_item_id ∧
      some R.output_item_count = rec.output_item_count ∧
      R.disciplines = rec.disciplines ∧
      R.ingredients = rec.ingredients ∧
      (R.source = RecipeSource.Achievement ↔
        config.Discipline.Achievement ∈ rec.disciplines) ∧
      (R.source = RecipeSource.Automatic ↔
        config.Discipline.Achievement ∉ rec.disciplines)) := by
  cases h : rec.output_item_count with
  | none =>
    have hval : Recipe.try_from_gw2efficiency rec =
        Except.error ("Ignoring '" ++ rec.name ++
          "'. Failed to parse 'output_item_count' as integer.") := by
      simp [Recipe.try_from_gw2efficiency, h]
    refine ⟨⟨fun _ => rfl, fun _ => ⟨_, hval⟩⟩, ?_, ?_⟩
    · intro e he
      rw [hval] at he
      exact ⟨"Ignoring '",
        "'. Failed to parse 'output_item_count' as integer.",
        (Except.error.inj he).symm⟩
    · intro R hR
      rw [hval] at hR
      exact absurd hR (by simp)
  | some c =>
    have hval : Recipe.try_from_gw2efficiency rec =
        Except.ok
          { id := none
            output_item_id := rec.output_item_id
            output_item_count := c
            disciplines := rec.disciplines
            ingredients := rec.ingredients
            source :=
              if rec.disciplines.contains config.Discipline.Achievement then
                RecipeSource.Achievement
              else RecipeSource.Automatic } := by
      simp [Recipe.try_from_gw2efficiency, h]
    refine ⟨⟨?_, by simp [h]⟩, ?_, ?_⟩
    · rintro ⟨e, he⟩
      rw [hval] at he
      exact absurd he (by simp)
    · intro e he
      rw [hval] at he
      exact absurd he (by simp)
    · intro R hR
      rw [hval] at hR
      rw [Except.ok.injEq] at hR
      subst hR
      by_cases hd : config.Discipline.Achievement ∈ rec.disciplines <;>
        simp [h, hd, List.contains, List.elem_eq_mem]

/-- A community record whose output quantity did not parse. -/
def exBadRecord : gw2efficiency.Recipe :=
  { name := "Bolt of Dawn"
    output_item_id := 5
    output_item_count := none
    disciplines := []
    ingredients := [] }

/-- A parseable community record with the `Achievement` discipline. -/
def exGoodRecord : gw2efficiency.Recipe :=
  { name := "Mystic Clover"
    output_item_id := 6
    output_item_count := some 1
    disciplines := [config.Discipline.Achievement]
    ingredients := [] }

/-- C7 witness: on a concrete unparseable record the failure message does
contain the record's name, and a concrete parseable record converts with
no identifier. -/
theorem try_from_gw2efficiency_spec_witness :
    (∃ p q,
      ("Ignoring '" ++ exBadRecord.name ++
          "'. Failed to parse 'output_item_count' as integer." : String) =
        p ++ exBadRecord.name ++ q) ∧
    ∃ R, Recipe.try_from_gw2efficiency exGoodRecord = Except.ok R ∧
      R.id = none := by
  constructor
  · exact (try_from_gw2efficiency_spec exBadRecord).2.1 _ rfl
  · exact ⟨_, rfl, ((try_from_gw2efficiency_spec exGoodRecord).2.2 _ rfl).1⟩

/-- C9: authoritative-service conversion is total (a plain function),
keeps the record's identifier as a present id, carries the fields over,
and classifies purchase first, then automatic, else discoverable. -/
theorem from_api_spec (rec : api.Recipe) :
    (Recipe.from_api rec).id = some rec.id ∧
    (Recipe.from_api rec).output_item_id = rec.output_item_id ∧
    (Recipe.from_api rec).output_item_count = rec.output_item_count ∧
    (Recipe.from_api rec).disciplines = rec.disciplines ∧
    (Recipe.from_api rec).ingredients = rec.ingredients ∧
    (rec.is_purchased = true →
      (Recipe.from_api rec).source = RecipeSource.Purchasable) ∧
    (rec.is_purchased = false → rec.is_automatic = true →
      (Recipe.from_api rec).source = RecipeSource.Automatic) ∧
    (rec.is_purchased = false → rec.is_automatic = false →
      (Recipe.from_api rec).source = RecipeSource.Discoverable) := by
  refine ⟨rfl, rfl, rfl, rfl, rfl, ?_, ?_, ?_⟩ <;>
    intros <;> simp_all [Recipe.from_api]

/-- The accumulator grows only at the end, by pairwise distinct
identifiers that were not already present: `res` is `ids` followed by a
duplicate-free list of fresh identifiers. -/
def FreshExtension (ids res : List Nat) : Prop :=
  ∃ t, res = ids ++ t ∧ t.Nodup ∧ ∀ x ∈ t, x ∉ ids

theorem FreshExtension.refl (ids : List Nat) : FreshExtension ids ids :=
  ⟨[], by simp⟩

theorem FreshExtension.subset {ids res : List Nat}
    (h : FreshExtension ids res) : ∀ x ∈ ids, x ∈ res := by
  obtain ⟨t, rfl, -, -⟩ := h
  intro x hx
  exact List.mem_append_left t hx

theorem FreshExtension.trans {a b c : List Nat}
    (h1 : FreshExtension a b) (h2 : FreshExtension b c) :
    FreshExtension a c := by
  obtain ⟨t1, rfl, ht1, hf1⟩ := h1
  obtain ⟨t2, rfl, ht2, hf2⟩ := h2
  refine ⟨t1 ++ t2, by simp, ?_, ?_⟩
  · refine List.Nodup.append ht1 ht2 ?_
    intro x hx1 hx2
    exact hf2 x hx2 (List.mem_append_right a hx1)
  · intro x hx ha
    rcases List.mem_append.mp hx with hx | hx
    · exact hf1 x hx ha
    · exact hf2 x hx (List.mem_append_left t1 ha)

theorem FreshExtension.push {ids : List Nat} {a : Nat} (ha : a ∉ ids) :
    FreshExtension ids (ids ++ [a]) :=
  ⟨[a], rfl, List.nodup_singleton a, by simpa using ha⟩

theorem collectIngredientsFrom_extends
    {visit : Recipe → List Nat → Option (List Nat)}
    (hv : ∀ r ids res, visit r ids = some res → FreshExtension ids res)
    (db : RecipeDb) :
    ∀ ings ids res, collectIngredientsFrom visit db ings ids = some res →
      FreshExtension ids res := by
  intro ings
  induction ings with
  | nil =>
    intro ids res h
    cases h
    exact FreshExtension.refl ids
  | cons ing rest ih =>
    intro ids res h
    rw [collectIngredientsFrom] at h
    by_cases hmem : ing.item_id ∈ ids
    · rw [if_pos hmem] at h
      exact ih ids res h
    · rw [if_neg hmem] at h
      cases hg : getRecipe db ing.item_id with
      | none =>
        simp only [hg] at h
        exact (FreshExtension.push hmem).trans (ih _ res h)
      | some recipe =>
        simp only [hg] at h
        cases hvis : visit recipe (ids ++ [ing.item_id]) with
        | none =>
          simp only [hvis] at h
          exact Option.noConfusion h
        | some ids2 =>
          simp only [hvis] at h
          exact ((FreshExtension.push hmem).trans (hv _ _ _ hvis)).trans
            (ih _ res h)

theorem ReachableId.not_excl {db : RecipeDb} {excl : List Nat}
    {ings : List api.RecipeIngredient} {x : Nat}
    (h : ReachableId db excl ings x) : x ∉ excl := by
  cases h with
  | base _ hx => exact hx
  | step _ _ _ hx => exact hx

theorem ReachableId.mono {db : RecipeDb} {excl excl' : List Nat}
    {L L' : List api.RecipeIngredient} {x : Nat}
    (h : ReachableId db excl' L' x) (hx : ∀ y ∈ excl, y ∈ excl')
    (hL : ∀ i ∈ L', i ∈ L) : ReachableId db excl L x := by
  induction h with
  | base hing hexc =>
    exact ReachableId.base (hL _ hing) (fun hc => hexc (hx _ hc))
  | step hj hr hing hexc ihj =>
    exact ReachableId.step ihj hr hing (fun hc => hexc (hx _ hc))

theorem ReachableId.through {db : RecipeDb} {ids ids' : List Nat}
    {ings : List api.RecipeIngredient} {a : Nat} {r : Recipe}
    (ha : ReachableId db ids ings a) (hr : getRecipe db a = some r)
    (hsub : ∀ y ∈ ids, y ∈ ids') :
    ∀ x, ReachableId db ids' r.ingredients x → ReachableId db ids ings x := by
  intro x hx
  induction hx with
  | base hing hexc =>
    exact ReachableId.step ha hr hing (fun hc => hexc (hsub _ hc))
  | step hj hr2 hing hexc ihj =>
    exact ReachableId.step ihj hr2 hing (fun hc => hexc (hsub _ hc))

theorem collectIngredientsFrom_sound
    {db : RecipeDb} {visit : Recipe → List Nat → Option (List Nat)}
    (hvext : ∀ r ids res, visit r ids = some res → FreshExtension ids res)
    (hv : ∀ r ids res, visit r ids = some res →
      ∀ x ∈ res, x ∈ ids ∨ ReachableId db ids r.ingredients x) :
    ∀ ings ids res, collectIngredientsFrom visit db ings ids = some res →
      ∀ x ∈ res, x ∈ ids ∨ ReachableId db ids ings x := by
  intro ings
  induction ings with
  | nil =>
    intro ids res h x hx
    cases h
    exact Or.inl hx
  | cons ing rest ih =>
    intro ids res h x hx
    rw [collectIngredientsFrom] at h
    by_cases hmem : ing.item_id ∈ ids
    · rw [if_pos hmem] at h
      rcases ih ids res h x hx with hin | hre
      · exact Or.inl hin
      · exact Or.inr (hre.mono (fun y hy => hy)
          (fun i hi => List.mem_cons_of_mem ing hi))
    · rw [if_neg hmem] at h
      have hbase : ReachableId db ids (ing :: rest) ing.item_id :=
        ReachableId.base (List.mem_cons_self ing rest) hmem
      have hpush : ∀ y ∈ ids, y ∈ ids ++ [ing.item_id] :=
        fun y hy => List.mem_append_left _ hy
      cases hg : getRecipe db ing.item_id with
      | none =>
        simp only [hg] at h
        rcases ih _ res h x hx with hin | hre
        · rcases List.mem_append.mp hin with hin | hin
          · exact Or.inl hin
          · exact Or.inr (List.mem_singleton.mp hin ▸ hbase)
        · refine Or.inr (hre.mono ?_ (fun i hi => List.mem_cons_of_mem ing hi))
          exact hpush
      | some recipe =>
        simp only [hg] at h
        cases hvis : visit recipe (ids ++ [ing.item_id]) with
        | none =>
          simp only [hvis] at h
          exact Option.noConfusion h
        | some ids2 =>
          simp only [hvis] at h
          rcases ih _ res h x hx with hin | hre
          · rcases hv _ _ _ hvis x hin with hin2 | hre2
            · rcases List.mem_append.mp hin2 with hin2 | hin2
              · exact Or.inl hin2
              · exact Or.inr (List.mem_singleton.mp hin2 ▸ hbase)
            · exact Or.inr (ReachableId.through hbase hg hpush x hre2)
          · refine Or.inr (hre.mono ?_ (fun i hi => List.mem_cons_of_mem ing hi))
            intro y hy
            exact (hvext _ _ _ hvis).subset y (hpush y hy)

theorem collectIngredientsFrom_ing_mem
    {db : RecipeDb} {visit : Recipe → List Nat → Option (List Nat)}
    (hvext : ∀ r ids res, visit r ids = some res → FreshExtension ids res) :
    ∀ ings ids res, collectIngredientsFrom visit db ings ids = some res →
      ∀ ing ∈ ings, ing.item_id ∈ res := by
  intro ings
  induction ings with
  | nil =>
    intro ids res h ing hing
    cases hing
  | cons ing rest ih =>
    intro ids res h ing' hing'
    rw [collectIngredientsFrom] at h
    by_cases hmem : ing.item_id ∈ ids
    · rw [if_pos hmem] at h
      rcases List.mem_cons.mp hing' with rfl | hing'
      · exact (collectIngredientsFrom_extends hvext db rest ids res h).subset
          _ hmem
      · exact ih ids res h ing' hing'
    · rw [if_neg hmem] at h
      have hself : ing.item_id ∈ ids ++ [ing.item_id] := by simp
      cases hg : getRecipe db ing.item_id with
      | none =>
        simp only [hg] at h
        rcases List.mem_cons.mp hing' with rfl | hing'
        · exact (collectIngredientsFrom_extends hvext db rest _ res h).subset
            _ hself
        · exact ih _ res h ing' hing'
      | some recipe =>
        simp only [hg] at h
        cases hvis : visit recipe (ids ++ [ing.item_id]) with
        | none =>
          simp only [hvis] at h
          exact Option.noConfusion h
        | some ids2 =>
          simp only [hvis] at h
          rcases List.mem_cons.mp hing' with rfl | hing'
          · exact (collectIngredientsFrom_extends hvext db rest _ res h).subset
              _ ((hvext _ _ _ hvis).subset _ hself)
          · exact ih _ res h ing' hing'

theorem getRecipe_deterministic {db : RecipeDb} {k : Nat} {r1 r2 : Recipe}
    (h1 : getRecipe db k = some r1) (h2 : getRecipe db k = some r2) :
    r1 = r2 := by
  rw [h1] at h2
  exact Option.some.inj h2

theorem collectIngredientsFrom_closed
    {db : RecipeDb} {visit : Recipe → List Nat → Option (List Nat)}
    (hvext : ∀ r ids res, visit r ids = some res → FreshExtension ids res)
    (hving : ∀ r ids res, visit r ids = some res →
      ∀ ing ∈ r.ingredients, ing.item_id ∈ res)
    (hvclo : ∀ r ids res, visit r ids = some res → ∀ j ∈ res, j ∉ ids →
      ∀ rj, getRecipe db j = some rj → ∀ ing ∈ rj.ingredients,
        ing.item_id ∈ res) :
    ∀ ings ids res, collectIngredientsFrom visit db ings ids = some res →
      ∀ j ∈ res, j ∉ ids → ∀ rj, getRecipe db j = some rj →
        ∀ ing ∈ rj.ingredients, ing.item_id ∈ res := by
  intro ings
  induction ings with
  | nil =>
    intro ids res h j hj hjn
    cases h
    exact absurd hj hjn
  | cons ing rest ih =>
    intro ids res h j hj hjn rj hrj ing' hing'
    rw [collectIngredientsFrom] at h
    by_cases hmem : ing.item_id ∈ ids
    · rw [if_pos hmem] at h
      exact ih ids res h j hj hjn rj hrj ing' hing'
    · rw [if_neg hmem] at h
      cases hg : getRecipe db ing.item_id with
      | none =>
        simp only [hg] at h
        by_cases hja : j = ing.item_id
        · subst hja
          rw [hg] at hrj
          exact Option.noConfusion hrj
        · have hjn2 : j ∉ ids ++ [ing.item_id] := by
            simp only [List.mem_append, List.mem_singleton]
            rintro (hc | hc)
            · exact hjn hc
            · exact hja hc
          exact ih _ res h j hj hjn2 rj hrj ing' hing'
      | some recipe =>
        simp only [hg] at h
        cases hvis : visit recipe (ids ++ [ing.item_id]) with
        | none =>
          simp only [hvis] at h
          exact Option.noConfusion h
        | some ids2 =>
          simp only [hvis] at h
          have htail := collectIngredientsFrom_extends hvext db rest ids2 res h
          by_cases hj2 : j ∈ ids2
          · by_cases hja : j = ing.item_id
            · subst hja
              have : rj = recipe := getRecipe_deterministic hrj hg
              subst this
              exact htail.subset _ (hving _ _ _ hvis ing' hing')
            · have hjn2 : j ∉ ids ++ [ing.item_id] := by
                simp only [List.mem_append, List.mem_singleton]
                rintro (hc | hc)
                · exact hjn hc
                · exact hja hc
              exact htail.subset _
                (hvclo _ _ _ hvis j hj2 hjn2 rj hrj ing' hing')
          · exact ih _ res h j hj hj2 rj hrj ing' hing'

theorem collect_ingredient_ids_extends :
    ∀ fuel db r ids res,
      Recipe.collect_ingredient_ids fuel db r ids = some res →
      FreshExtension ids res := by
  intro fuel
  induction fuel with
  | zero =>
    intro db r ids res h
    exact Option.noConfusion h
  | succ fuel ih =>
    intro db r ids res h
    rw [Recipe.collect_ingredient_ids] at h
    exact collectIngredientsFrom_extends (fun r2 i2 rs2 h2 => ih db r2 i2 rs2 h2)
      db r.ingredients ids res h

theorem collect_ingredient_ids_sound :
    ∀ fuel db r ids res,
      Recipe.collect_ingredient_ids fuel db r ids = some res →
      ∀ x ∈ res, x ∈ ids ∨ ReachableId db ids r.ingredients x := by
  intro fuel
  induction fuel with
  | zero =>
    intro db r ids res h
    exact Option.noConfusion h
  | succ fuel ih =>
    intro db r ids res h
    rw [Recipe.collect_ingredient_ids] at h
    exact collectIngredientsFrom_sound
      (fun r2 i2 rs2 h2 => collect_ingredient_ids_extends fuel db r2 i2 rs2 h2)
      (fun r2 i2 rs2 h2 => ih db r2 i2 rs2 h2)
      r.ingredients ids res h

theorem collect_ingredient_ids_ing_mem :
    ∀ fuel db (r : Recipe) ids res,
      Recipe.collect_ingredient_ids fuel db r ids = some res →
      ∀ ing ∈ r.ingredients, ing.item_id ∈ res := by
  intro fuel db r ids res h
  cases fuel with
  | zero => exact Option.noConfusion h
  | succ fuel =>
    rw [Recipe.collect_ingredient_ids] at h
    exact collectIngredientsFrom_ing_mem
      (fun r2 i2 rs2 h2 => collect_ingredient_ids_extends fuel db r2 i2 rs2 h2)
      r.ingredients ids res h

theorem collect_ingredient_ids_closed :
    ∀ fuel db (r : Recipe) ids res,
      Recipe.collect_ingredient_ids fuel db r ids = some res →
      ∀ j ∈ res, j ∉ ids → ∀ rj, getRecipe db j = some rj →
        ∀ ing ∈ rj.ingredients, ing.item_id ∈ res := by
  intro fuel
  induction fuel with
  | zero =>
    intro db r ids res h
    exact Option.noConfusion h
  | succ fuel ih =>
    intro db r ids res h
    rw [Recipe.collect_ingredient_ids] at h
    exact collectIngredientsFrom_closed
      (fun r2 i2 rs2 h2 => collect_ingredient_ids_extends fuel db r2 i2 rs2 h2)
      (fun r2 i2 rs2 h2 =>
        collect_ingredient_ids_ing_mem fuel db r2 i2 rs2 h2)
      (fun r2 i2 rs2 h2 => ih db r2 i2 rs2 h2)
      r.ingredients ids res h

theorem collect_ingredient_ids_complete
    {fuel : Nat} {db : RecipeDb} {r : Recipe} {ids res : List Nat}
    (h : Recipe.collect_ingredient_ids fuel db r ids = some res) :
    ∀ x, ReachableId db ids r.ingredients x → x ∈ res := by
  intro x hx
  induction hx with
  | base hing hexc =>
    exact collect_ingredient_ids_ing_mem fuel db r ids res h _ hing
  | step hj hr hing hexc ihj =>
    exact collect_ingredient_ids_closed fuel db r ids res h _ ihj
      hj.not_excl _ hr _ hing

/-- The set of item identifiers for which the database stores a recipe. -/
def dbKeys (db : RecipeDb) : Finset Nat := (db.map Prod.fst).toFinset

theorem getRecipe_mem_keys {db : RecipeDb} {k : Nat} {r : Recipe}
    (h : getRecipe db k = some r) : k ∈ dbKeys db := by
  unfold getRecipe at h
  cases hf : db.find? (fun p => p.1 == k) with
  | none => rw [hf] at h; exact Option.noConfusion h
  | some p =>
    have hp : p ∈ db := List.mem_of_find?_eq_some hf
    have hk := List.find?_some hf
    have : p.1 = k := by simpa using hk
    subst this
    exact List.mem_toFinset.mpr (List.mem_map.mpr ⟨p, hp, rfl⟩)

theorem collect_ingredient_ids_adequate :
    ∀ fuel db (r : Recipe) ids,
      (dbKeys db \ ids.toFinset).card < fuel →
      ∃ res, Recipe.collect_ingredient_ids fuel db r ids = some res := by
  intro fuel
  induction fuel with
  | zero =>
    intro db r ids hcard
    exact absurd hcard (Nat.not_lt_zero _)
  | succ fuel ih =>
    intro db r ids hcard
    rw [Recipe.collect_ingredient_ids]
    have loop : ∀ ings ids2, (dbKeys db \ ids2.toFinset).card < fuel + 1 →
        ∃ res,
          collectIngredientsFrom (Recipe.collect_ingredient_ids fuel db) db
            ings ids2 = some res := by
      intro ings
      induction ings with
      | nil => exact fun ids2 _ => ⟨ids2, rfl⟩
      | cons ing rest iih =>
        intro ids2 hm
        rw [collectIngredientsFrom]
        by_cases hmem : ing.item_id ∈ ids2
        · rw [if_pos hmem]
          exact iih ids2 hm
        · rw [if_neg hmem]
          have hsub : ∀ l3 : List Nat, (∀ x ∈ ids2, x ∈ l3) →
              (dbKeys db \ l3.toFinset).card ≤
                (dbKeys db \ ids2.toFinset).card := by
            intro l3 h3
            refine Finset.card_le_card
              (Finset.sdiff_subset_sdiff (Finset.Subset.refl _) ?_)
            intro x hx
            exact List.mem_toFinset.mpr (h3 x (List.mem_toFinset.mp hx))
          cases hg : getRecipe db ing.item_id with
          | none =>
            simp only [hg]
            refine iih (ids2 ++ [ing.item_id]) ?_
            exact Nat.lt_of_le_of_lt
              (hsub _ (fun x hx => List.mem_append_left _ hx)) hm
          | some recipe =>
            simp only [hg]
            have ha : ing.item_id ∈ dbKeys db \ ids2.toFinset :=
              Finset.mem_sdiff.mpr ⟨getRecipe_mem_keys hg,
                fun hc => hmem (List.mem_toFinset.mp hc)⟩
            have herase : dbKeys db \ (ids2 ++ [ing.item_id]).toFinset =
                (dbKeys db \ ids2.toFinset).erase ing.item_id := by
              ext x
              simp only [Finset.mem_sdiff, List.mem_toFinset,
                List.mem_append, List.mem_singleton, Finset.mem_erase]
              tauto
            have hlt : (dbKeys db \ (ids2 ++ [ing.item_id]).toFinset).card <
                fuel := by
              rw [herase, Finset.card_erase_of_mem ha]
              have hpos : 0 < (dbKeys db \ ids2.toFinset).card :=
                Finset.card_pos.mpr ⟨_, ha⟩
              omega
            obtain ⟨ids3, h3⟩ := ih db recipe (ids2 ++ [ing.item_id]) hlt
            have hext := collect_ingredient_ids_extends fuel db recipe _ _ h3
            have hm3 : (dbKeys db \ ids3.toFinset).card < fuel + 1 := by
              have hle := hsub ids3
                (fun x hx => hext.subset x (List.mem_append_left _ hx))
              omega
            obtain ⟨res, hres⟩ := iih ids3 hm3
            exact ⟨res, by rw [h3]; exact hres⟩
    exact loop r.ingredients ids hcard

theorem unknownStep_mono (r : Recipe) (kn : Option (Finset Nat))
    (acc : Finset Nat) : acc ⊆ unknownStep r kn acc := by
  unfold unknownStep
  cases r.id with
  | none => exact Finset.Subset.refl acc
  | some id =>
    by_cases hacc : id ∈ acc
    · simp [hacc]
    · by_cases hauto : r.is_automatic
      · simp [hacc, hauto]
      · cases kn with
        | none => simp [hacc, hauto, Finset.subset_insert]
        | some ks =>
          by_cases hks : id ∈ ks <;>
            simp [hacc, hauto, hks, Finset.subset_insert]

theorem unknownStep_automatic (r : Recipe) (kn : Option (Finset Nat))
    (acc : Finset Nat) (h : r.is_automatic = true) :
    unknownStep r kn acc = acc := by
  unfold unknownStep
  cases r.id with
  | none => rfl
  | some id =>
    by_cases hacc : id ∈ acc
    · simp [hacc]
    · simp [hacc, h]

theorem unknownStep_sound {r : Recipe} {kn : Option (Finset Nat)}
    {acc : Finset Nat} :
    ∀ x ∈ unknownStep r kn acc, x ∈ acc ∨
      (r.id = some x ∧ r.is_automatic = false ∧ x ∉ knownIds kn) := by
  intro x hx
  cases hid : r.id with
  | none =>
    simp only [unknownStep, hid] at hx
    exact Or.inl hx
  | some id =>
    by_cases hacc : id ∈ acc
    · simp only [unknownStep, hid, if_pos hacc] at hx
      exact Or.inl hx
    · by_cases hauto : r.is_automatic = true
      · rw [unknownStep_automatic r kn acc hauto] at hx
        exact Or.inl hx
      · cases hkn : kn with
        | none =>
          simp only [unknownStep, hid, hkn, if_neg hacc, if_neg hauto] at hx
          rcases Finset.mem_insert.mp hx with rfl | hx
          · exact Or.inr ⟨rfl, Bool.eq_false_iff.mpr hauto, by simp [knownIds]⟩
          · exact Or.inl hx
        | some ks =>
          simp only [unknownStep, hid, hkn, if_neg hacc, if_neg hauto] at hx
          by_cases hks : id ∈ ks
          · rw [if_pos hks] at hx
            exact Or.inl hx
          · rw [if_neg hks] at hx
            rcases Finset.mem_insert.mp hx with rfl | hx
            · exact Or.inr ⟨rfl, Bool.eq_false_iff.mpr hauto,
                by simpa [knownIds] using hks⟩
            · exact Or.inl hx

theorem unknownStep_complete {r : Recipe} {kn : Option (Finset Nat)}
    (acc : Finset Nat) {i : Nat} (hid : r.id = some i)
    (hauto : r.is_automatic = false) (hkn : i ∉ knownIds kn) :
    i ∈ unknownStep r kn acc := by
  unfold unknownStep
  simp only [hid]
  by_cases hacc : i ∈ acc
  · simp [hacc]
  · cases kn with
    | none => simp [hacc, hauto]
    | some ks =>
      simp only [knownIds] at hkn
      simp [hacc, hauto, hkn]

theorem collectUnknownFrom_mono
    {db : RecipeDb} {visit : Recipe → Finset Nat → Option (Finset Nat)}
    (hv : ∀ r a res, visit r a = some res → a ⊆ res) :
    ∀ ings acc res, collectUnknownFrom visit db ings acc = some res →
      acc ⊆ res := by
  intro ings
  induction ings with
  | nil =>
    intro acc res h
    cases h
    exact Finset.Subset.refl acc
  | cons ing rest ih =>
    intro acc res h
    rw [collectUnknownFrom] at h
    cases hg : getRecipe db ing.item_id with
    | none =>
      simp only [hg] at h
      exact ih acc res h
    | some recipe =>
      simp only [hg] at h
      cases hvis : visit recipe acc with
      | none =>
        simp only [hvis] at h
        exact Option.noConfusion h
      | some acc2 =>
        simp only [hvis] at h
        exact (hv _ _ _ hvis).trans (ih acc2 res h)

theorem collect_unknown_mono :
    ∀ fuel db kn (r : Recipe) acc res,
      Recipe.collect_unknown_recipe_ids fuel db kn r acc = some res →
      acc ⊆ res := by
  intro fuel
  induction fuel with
  | zero =>
    intro db kn r acc res h
    exact Option.noConfusion h
  | succ fuel ih =>
    intro db kn r acc res h
    rw [Recipe.collect_unknown_recipe_ids] at h
    exact (unknownStep_mono r kn acc).trans
      (collectUnknownFrom_mono (fun r2 a2 rs2 h2 => ih db kn r2 a2 rs2 h2)
        r.ingredients _ res h)

theorem chainRecipe_trans {db : RecipeDb} {root r1 r2 : Recipe}
    (h1 : ChainRecipe db root r1) (h2 : ChainRecipe db r1 r2) :
    ChainRecipe db root r2 := by
  induction h2 with
  | refl => exact h1
  | step h hi hn ih => exact ChainRecipe.step ih hi hn

theorem collect_unknown_sound :
    ∀ fuel db kn (r : Recipe) acc res,
      Recipe.collect_unknown_recipe_ids fuel db kn r acc = some res →
      ∀ x ∈ res, x ∈ acc ∨ ∃ R, ChainRecipe db r R ∧ R.id = some x ∧
        R.is_automatic = false ∧ x ∉ knownIds kn := by
  intro fuel
  induction fuel with
  | zero =>
    intro db kn r acc res h
    exact Option.noConfusion h
  | succ fuel ih =>
    intro db kn r acc res h
    rw [Recipe.collect_unknown_recipe_ids] at h
    have loop : ∀ ings acc2 res2, (∀ ing ∈ ings, ing ∈ r.ingredients) →
        collectUnknownFrom (Recipe.collect_unknown_recipe_ids fuel db kn) db
          ings acc2 = some res2 →
        ∀ x ∈ res2, x ∈ acc2 ∨ ∃ R, ChainRecipe db r R ∧ R.id = some x ∧
          R.is_automatic = false ∧ x ∉ knownIds kn := by
      intro ings
      induction ings with
      | nil =>
        intro acc2 res2 hsub h2 x hx
        cases h2
        exact Or.inl hx
      | cons ing rest iih =>
        intro acc2 res2 hsub h2 x hx
        rw [collectUnknownFrom] at h2
        cases hg : getRecipe db ing.item_id with
        | none =>
          simp only [hg] at h2
          exact iih acc2 res2 (fun i hi => hsub i (List.mem_cons_of_mem _ hi))
            h2 x hx
        | some recipe =>
          simp only [hg] at h2
          cases hvis : Recipe.collect_unknown_recipe_ids fuel db kn recipe
              acc2 with
          | none =>
            simp only [hvis] at h2
            exact Option.noConfusion h2
          | some acc3 =>
            simp only [hvis] at h2
            have hchain : ChainRecipe db r recipe :=
              ChainRecipe.step ChainRecipe.refl
                (hsub ing (List.mem_cons_self ing rest)) hg
            rcases iih acc3 res2
                (fun i hi => hsub i (List.mem_cons_of_mem _ hi)) h2 x hx with
              hx3 | hEx
            · rcases ih db kn recipe acc2 acc3 hvis x hx3 with hx2 | hEx
              · exact Or.inl hx2
              · obtain ⟨R, hR, hrest⟩ := hEx
                exact Or.inr ⟨R, chainRecipe_trans hchain hR, hrest⟩
            · exact Or.inr hEx
    intro x hx
    rcases loop r.ingredients _ res (fun i hi => hi) h x hx with hstep | hEx
    · rcases unknownStep_sound x hstep with hacc | hcond
      · exact Or.inl hacc
      · exact Or.inr ⟨r, ChainRecipe.refl, hcond⟩
    · exact Or.inr hEx

theorem collectUnknownFrom_visits
    {db : RecipeDb} {visit : Recipe → Finset Nat → Option (Finset Nat)}
    (hvmono : ∀ r a res, visit r a = some res → a ⊆ res) :
    ∀ ings acc res, collectUnknownFrom visit db ings acc = some res →
      ∀ ing ∈ ings, ∀ R, getRecipe db ing.item_id = some R →
        ∃ acc2 res2, visit R acc2 = some res2 ∧ res2 ⊆ res := by
  intro ings
  induction ings with
  | nil =>
    intro acc res h ing hing
    cases hing
  | cons ing2 rest ih =>
    intro acc res h ing hing R hR
    rw [collectUnknownFrom] at h
    cases hg : getRecipe db ing2.item_id with
    | none =>
      simp only [hg] at h
      rcases List.mem_cons.mp hing with rfl | hing
      · rw [hg] at hR
        exact Option.noConfusion hR
      · exact ih acc res h ing hing R hR
    | some recipe =>
      simp only [hg] at h
      cases hvis : visit recipe acc with
      | none =>
        simp only [hvis] at h
        exact Option.noConfusion h
      | some acc3 =>
        simp only [hvis] at h
        rcases List.mem_cons.mp hing with rfl | hing
        · rw [hg] at hR
          cases Option.some.inj hR
          exact ⟨acc, acc3, hvis,
            collectUnknownFrom_mono hvmono rest acc3 res h⟩
        · exact ih acc3 res h ing hing R hR

theorem collect_unknown_visits :
    ∀ fuel db kn (root : Recipe) acc res,
      Recipe.collect_unknown_recipe_ids fuel db kn root acc = some res →
      ∀ R, ChainRecipe db root R →
        ∃ fuel2 acc2 res2,
          Recipe.collect_unknown_recipe_ids fuel2 db kn R acc2 = some res2 ∧
            res2 ⊆ res := by
  intro fuel db kn root acc res h R hR
  induction hR with
  | refl => exact ⟨fuel, acc, res, h, Finset.Subset.refl res⟩
  | @step R1 R2 ing hch hi hn ih =>
    obtain ⟨f1, a1, r1, h1, hsub1⟩ := ih
    cases f1 with
    | zero => exact Option.noConfusion h1
    | succ g =>
      rw [Recipe.collect_unknown_recipe_ids] at h1
      obtain ⟨a2, r2, h2, hsub2⟩ := collectUnknownFrom_visits
        (fun r3 a3 rs3 h3 => collect_unknown_mono g db kn r3 a3 rs3 h3)
        R1.ingredients _ r1 h1 ing hi R2 hn
      exact ⟨g, a2, r2, h2, hsub2.trans hsub1⟩

theorem collect_unknown_complete :
    ∀ fuel db kn (root : Recipe) acc res,
      Recipe.collect_unknown_recipe_ids fuel db kn root acc = some res →
      ∀ R i, ChainRecipe db root R → R.id = some i →
        R.is_automatic = false → i ∉ knownIds kn → i ∈ res := by
  intro fuel db kn root acc res h R i hR hid hauto hkn
  obtain ⟨f2, a2, r2, h2, hsub⟩ :=
    collect_unknown_visits fuel db kn root acc res h R hR
  cases f2 with
  | zero => exact Option.noConfusion h2
  | succ g =>
    rw [Recipe.collect_unknown_recipe_ids] at h2
    have hstep : i ∈ unknownStep R kn a2 :=
      unknownStep_complete a2 hid hauto hkn
    have hmono := collectUnknownFrom_mono
      (fun r3 a3 rs3 h3 => collect_unknown_mono g db kn r3 a3 rs3 h3)
      R.ingredients _ r2 h2
    exact hsub (hmono hstep)

/-- C3: whenever a run of `collect_unknown_recipe_ids` from an empty
accumulator completes, its result holds an identifier `i` exactly when
some recipe of the root's production chain carries identifier `i`, is not
automatic, and `i` is not in the known-recipe set (an absent set read as
the empty set); being a set, each identifier appears exactly once.  On the
spec's example database the run on recipe 10 with no known set yields
exactly the set containing 1. -/
theorem collect_unknown_recipe_ids_spec :
    (∀ db kn (root : Recipe) fuel res,
      Recipe.collect_unknown_recipe_ids fuel db kn root ∅ = some res →
      ∀ i, i ∈ res ↔ ∃ R, ChainRecipe db root R ∧ R.id = some i ∧
        R.is_automatic = false ∧ i ∉ knownIds kn) ∧
    Recipe.collect_unknown_recipe_ids 3 chainDb none exRecipe10 ∅ =
      some {1} := by
  refine ⟨?_, by decide⟩
  intro db kn root fuel res h i
  constructor
  · intro hi
    rcases collect_unknown_sound fuel db kn root ∅ res h i hi with hc | hc
    · cases hc
    · exact hc
  · rintro ⟨R, hR, hid, hauto, hkn⟩
    exact collect_unknown_complete fuel db kn root ∅ res h R i hR hid
      hauto hkn

/-- C3 witness: on the concrete example run the characterization applied
at identifier 1 produces the chain recipe carrying it. -/
theorem collect_unknown_recipe_ids_spec_witness :
    ∃ R, ChainRecipe chainDb exRecipe10 R ∧ R.id = some 1 ∧
      R.is_automatic = false ∧ (1 : Nat) ∉ knownIds none := by
  exact (collect_unknown_recipe_ids_spec.1 chainDb none exRecipe10 3 {1}
    collect_unknown_recipe_ids_spec.2 1).mp (by decide)

theorem collectUnknownFrom_single_some
    {db : RecipeDb} {visit : Recipe → Finset Nat → Option (Finset Nat)}
    {ing : api.RecipeIngredient} {recipe : Recipe} {acc : Finset Nat}
    (hg : getRecipe db ing.item_id = some recipe)
    (hv : visit recipe acc = none) :
    collectUnknownFrom visit db [ing] acc = none := by
  rw [collectUnknownFrom]
  simp only [hg, hv]

/-- The traversal never returns, whatever recursion depth it is allowed:
the embedding of a Rust call that runs forever. -/
def NeverCompletes (db : RecipeDb) (kn : Option (Finset Nat))
    (r : Recipe) : Prop :=
  ∀ fuel acc, Recipe.collect_unknown_recipe_ids fuel db kn r acc = none

/-- C2 counterexample: on the spec's own two-cycle database (item 10
requires item 20, item 20 requires item 10) `collect_unknown_recipe_ids`
recurses forever from either recipe — its ingredient recursion carries no
cycle guard — so the claim that every database admits a terminating
traversal is false. -/
theorem collect_unknown_cycle_counterexample :
    NeverCompletes cycleDb none cycRecipe10 ∧
    NeverCompletes cycleDb none cycRecipe20 := by
  have h20 : getRecipe cycleDb 20 = some cycRecipe20 := by decide
  have h10 : getRecipe cycleDb 10 = some cycRecipe10 := by decide
  have key : ∀ fuel,
      (∀ acc, Recipe.collect_unknown_recipe_ids fuel cycleDb none
        cycRecipe10 acc = none) ∧
      (∀ acc, Recipe.collect_unknown_recipe_ids fuel cycleDb none
        cycRecipe20 acc = none) := by
    intro fuel
    induction fuel with
    | zero => exact ⟨fun _ => rfl, fun _ => rfl⟩
    | succ f ihf =>
      constructor
      · intro acc
        rw [Recipe.collect_unknown_recipe_ids]
        exact collectUnknownFrom_single_some h20 (ihf.2 _)
      · intro acc
        rw [Recipe.collect_unknown_recipe_ids]
        exact collectUnknownFrom_single_some h10 (ihf.1 _)
  exact ⟨fun fuel acc => (key fuel).1 acc, fun fuel acc => (key fuel).2 acc⟩

theorem getRecipe_mem {db : RecipeDb} {j : Nat} {r : Recipe}
    (h : getRecipe db j = some r) : (j, r) ∈ db := by
  unfold getRecipe at h
  cases hf : db.find? (fun p => p.1 == j) with
  | none =>
    rw [hf] at h
    exact Option.noConfusion h
  | some p =>
    rw [hf] at h
    have hp : p ∈ db := List.mem_of_find?_eq_some hf
    have hk := List.find?_some hf
    have h1 : p.1 = j := by simpa using hk
    have h2 : p.2 = r := Option.some.inj h
    have : p = (j, r) := by
      cases p
      simp_all
    rw [this] at hp
    exact hp

/-- A rank certificate for the database: every ingredient of a stored
recipe ranks strictly below the key of its entry.  Such a certificate
exists exactly when the production graph is acyclic, and it bounds the
recursion depth of the unguarded traversal. -/
def Ranked (db : RecipeDb) (rank : Nat → Nat) : Prop :=
  ∀ p ∈ db, ∀ ing ∈ p.2.ingredients, rank ing.item_id < rank p.1

instance (db : RecipeDb) (rank : Nat → Nat) : Decidable (Ranked db rank) := by
  unfold Ranked
  infer_instance

theorem collect_unknown_adequate_of_ranked :
    ∀ fuel db (rank : Nat → Nat), Ranked db rank →
      ∀ j r, getRecipe db j = some r → rank j < fuel →
        ∀ kn acc, ∃ res,
          Recipe.collect_unknown_recipe_ids fuel db kn r acc = some res := by
  intro fuel
  induction fuel with
  | zero =>
    intro db rank hrk j r hj hlt kn acc
    exact absurd hlt (Nat.not_lt_zero _)
  | succ f ih =>
    intro db rank hrk j r hj hlt kn acc
    rw [Recipe.collect_unknown_recipe_ids]
    have hpair := getRecipe_mem hj
    have loop : ∀ ings, (∀ ing ∈ ings, ing ∈ r.ingredients) →
        ∀ acc2, ∃ res,
          collectUnknownFrom (Recipe.collect_unknown_recipe_ids f db kn) db
            ings acc2 = some res := by
      intro ings
      induction ings with
      | nil => exact fun _ acc2 => ⟨acc2, rfl⟩
      | cons ing rest iih =>
        intro hsub acc2
        rw [collectUnknownFrom]
        cases hg : getRecipe db ing.item_id with
        | none =>
          simp only [hg]
          exact iih (fun i hi => hsub i (List.mem_cons_of_mem _ hi)) acc2
        | some r2 =>
          have hrank : rank ing.item_id < rank j :=
            hrk (j, r) hpair ing (hsub ing (List.mem_cons_self ing rest))
          have hlt2 : rank ing.item_id < f := by omega
          obtain ⟨res2, hres2⟩ := ih db rank hrk ing.item_id r2 hg hlt2 kn acc2
          obtain ⟨res3, hres3⟩ :=
            iih (fun i hi => hsub i (List.mem_cons_of_mem _ hi)) res2
          exact ⟨res3, by simp only [hg, hres2]; exact hres3⟩
    exact loop r.ingredients (fun i hi => hi) _

theorem le_foldr_max : ∀ (l : List Nat) (x : Nat), x ∈ l →
    x ≤ l.foldr max 0 := by
  intro l
  induction l with
  | nil =>
    intro x hx
    cases hx
  | cons a t ih =>
    intro x hx
    rcases List.mem_cons.mp hx with rfl | hx
    · exact Nat.le_max_left _ _
    · exact Nat.le_trans (ih x hx) (Nat.le_max_right a _)

/-- C2 amended: the traversal terminates for every database that admits a
rank certificate (equivalently: whose production graph is acyclic), for
every root recipe, known-recipe set and accumulator; on cyclic databases
it never completes (see the counterexample). -/
theorem collect_unknown_terminates_of_ranked :
    ∀ db (rank : Nat → Nat), Ranked db rank →
      ∀ kn (root : Recipe) acc, ∃ fuel res,
        Recipe.collect_unknown_recipe_ids fuel db kn root acc = some res := by
  intro db rank hrk kn root acc
  refine ⟨((root.ingredients.map (fun ing => rank ing.item_id)).foldr max 0
    + 1) + 1, ?_⟩
  rw [Recipe.collect_unknown_recipe_ids]
  have loop : ∀ ings, (∀ ing ∈ ings, ing ∈ root.ingredients) →
      ∀ acc2, ∃ res,
        collectUnknownFrom
          (Recipe.collect_unknown_recipe_ids
            ((root.ingredients.map (fun ing => rank ing.item_id)).foldr max 0
              + 1) db kn) db ings acc2 = some res := by
    intro ings
    induction ings with
    | nil => exact fun _ acc2 => ⟨acc2, rfl⟩
    | cons ing rest iih =>
      intro hsub acc2
      rw [collectUnknownFrom]
      cases hg : getRecipe db ing.item_id with
      | none =>
        simp only [hg]
        exact iih (fun i hi => hsub i (List.mem_cons_of_mem _ hi)) acc2
      | some r2 =>
        have hle : rank ing.item_id ≤
            (root.ingredients.map (fun ing => rank ing.item_id)).foldr
              max 0 :=
          le_foldr_max _ _ (List.mem_map.mpr
            ⟨ing, hsub ing (List.mem_cons_self ing rest), rfl⟩)
        obtain ⟨res2, hres2⟩ := collect_unknown_adequate_of_ranked _ db rank
          hrk ing.item_id r2 hg (Nat.lt_succ_of_le hle) kn acc2
        obtain ⟨res3, hres3⟩ :=
          iih (fun i hi => hsub i (List.mem_cons_of_mem _ hi)) res2
        exact ⟨res3, by simp only [hg, hres2]; exact hres3⟩
  exact loop root.ingredients (fun i hi => hi) _

/-- A rank certificate for the spec's example database. -/
def chainRank : Nat → Nat :=
  fun i => if i = 10 then 2 else if i = 20 then 1 else 0

/-- C2 amended witness: the example database is ranked, so the collector
terminates on it. -/
theorem collect_unknown_terminates_of_ranked_witness :
    ∃ fuel res, Recipe.collect_unknown_recipe_ids fuel chainDb none
      exRecipe10 ∅ = some res :=
  collect_unknown_terminates_of_ranked chainDb chainRank (by decide) none
    exRecipe10 ∅

/-- C8: `is_automatic` is true exactly for the `Automatic` and
`Discoverable` sources and false exactly for `Purchasable` and
`Achievement`; the insertion step of the unknown-recipe collector leaves
the accumulator untouched on every automatic recipe, whatever the
known-recipe set; consequently every identifier a completed run collects
comes from a non-automatic chain recipe, so the visit of an automatic
recipe never inserts its identifier. -/
theorem is_automatic_spec :
    (∀ r : Recipe, r.is_automatic = true ↔
      (r.source = RecipeSource.Automatic ∨
        r.source = RecipeSource.Discoverable)) ∧
    (∀ r : Recipe, r.is_automatic = false ↔
      (r.source = RecipeSource.Purchasable ∨
        r.source = RecipeSource.Achievement)) ∧
    (∀ (r : Recipe) kn acc, r.is_automatic = true →
      unknownStep r kn acc = acc) ∧
    (∀ fuel db kn (root : Recipe) res i,
      Recipe.collect_unknown_recipe_ids fuel db kn root ∅ = some res →
      i ∈ res →
      ∃ R, ChainRecipe db root R ∧ R.id = some i ∧
        R.is_automatic = false) := by
  refine ⟨?_, ?_, fun r kn acc h => unknownStep_automatic r kn acc h, ?_⟩
  · intro r
    cases hs : r.source <;> simp [Recipe.is_automatic, hs]
  · intro r
    cases hs : r.source <;> simp [Recipe.is_automatic, hs]
  · intro fuel db kn root res i h hi
    rcases collect_unknown_sound fuel db kn root ∅ res h i hi with hc | hc
    · cases hc
    · obtain ⟨R, hR, hid, hauto, -⟩ := hc
      exact ⟨R, hR, hid, hauto⟩

/-- C8 witness: the automatic example recipe is classified automatic, its
insertion step is the identity on a concrete accumulator, and the
concrete example run's collected identifier 1 indeed comes from a
non-automatic chain recipe. -/
theorem is_automatic_spec_witness :
    exRecipe20.is_automatic = true ∧
    unknownStep exRecipe20 none {5} = {5} ∧
    ∃ R, ChainRecipe chainDb exRecipe10 R ∧ R.id = some 1 ∧
      R.is_automatic = false := by
  refine ⟨(is_automatic_spec.1 exRecipe20).mpr (Or.inl rfl),
    is_automatic_spec.2.2.1 exRecipe20 none {5} rfl,
    is_automatic_spec.2.2.2 3 chainDb none exRecipe10 {1} 1 (by decide)
      (by decide)⟩

/-- C4: from an empty accumulator, `collect_ingredient_ids` terminates on
every database (a depth bound of one more than the number of producible
items always suffices, cycles included), returns a duplicate-free vector
containing exactly the item identifiers reachable from the root recipe's
ingredients through producing recipes, and — being literally the
depth-first walk in stored ingredient order — lists them in first-visit
order: on the spec's example database the result for recipe 10 is the
ordered vector `[20, 30]`. -/
theorem collect_ingredient_ids_spec :
    (∀ db (r : Recipe), ∃ fuel res,
      Recipe.collect_ingredient_ids fuel db r [] = some res) ∧
    (∀ db (r : Recipe) fuel res,
      Recipe.collect_ingredient_ids fuel db r [] = some res →
      res.Nodup ∧ ∀ i, i ∈ res ↔ ReachableId db [] r.ingredients i) ∧
    Recipe.collect_ingredient_ids 3 chainDb exRecipe10 [] = some [20, 30] := by
  refine ⟨?_, ?_, by decide⟩
  · intro db r
    exact ⟨(dbKeys db \ ([] : List Nat).toFinset).card + 1, _,
      (collect_ingredient_ids_adequate _ db r [] (Nat.lt_succ_self _)).choose_spec⟩
  · intro db r fuel res h
    constructor
    · obtain ⟨t, rfl, ht, -⟩ := collect_ingredient_ids_extends fuel db r [] res h
      simpa using ht
    · intro i
      constructor
      · intro hi
        rcases collect_ingredient_ids_sound fuel db r [] res h i hi with hc | hc
        · cases hc
        · exact hc
      · exact fun hre => collect_ingredient_ids_complete h i hre

/-- C4 witness: the characterization applied to the concrete example run:
the output `[20, 30]` has no duplicates and its member 30 is reachable
from recipe 10's ingredients. -/
theorem collect_ingredient_ids_spec_witness :
    ([20, 30] : List Nat).Nodup ∧
    ReachableId chainDb [] exRecipe10.ingredients 30 := by
  have h := collect_ingredient_ids_spec.2.1 chainDb exRecipe10 3 [20, 30]
    collect_ingredient_ids_spec.2.2
  exact ⟨h.1, (h.2 30).mp (by decide)⟩

/-- C10: `collect_ingredient_ids` only appends to the caller-supplied
vector: the input is an initial segment of the output, followed by
pairwise distinct identifiers that were not already present; and an
identifier already in the vector is skipped entirely, so the result
membership is exactly the input members plus the identifiers reachable
from the root's ingredients without ever passing through an input member
(the input acts as an exclusion set). -/
theorem collect_ingredient_ids_frame :
    ∀ db (r : Recipe) ids fuel res,
      Recipe.collect_ingredient_ids fuel db r ids = some res →
      FreshExtension ids res ∧
      ∀ i, i ∈ res ↔ i ∈ ids ∨ ReachableId db ids r.ingredients i := by
  intro db r ids fuel res h
  refine ⟨collect_ingredient_ids_extends fuel db r ids res h, fun i => ⟨?_, ?_⟩⟩
  · exact fun hi => collect_ingredient_ids_sound fuel db r ids res h i hi
  · rintro (hi | hi)
    · exact (collect_ingredient_ids_extends fuel db r ids res h).subset i hi
    · exact collect_ingredient_ids_complete h i hi

/-- C10 witness: pre-populating the vector with item 20 makes the run on
recipe 10 skip item 20 entirely, so item 30 (reachable only through 20's
recipe) is not collected: the result is the untouched input `[20]`. -/
theorem collect_ingredient_ids_frame_witness :
    FreshExtension [20] [20] ∧
    ((30 : Nat) ∈ ([20] : List Nat) ↔
      (30 : Nat) ∈ ([20] : List Nat) ∨
        ReachableId chainDb [20] exRecipe10.ingredients 30) := by
  have h := collect_ingredient_ids_frame chainDb exRecipe10 [20] 3 [20]
    (by decide)
  exact ⟨h.1, h.2 30⟩

/-- A service record marked both purchased and automatically eligible. -/
def exApiRecord : api.Recipe :=
  { id := 7
    output_item_id := 11
    output_item_count := 1
    disciplines := [config.Discipline.Jeweler]
    ingredients := []
    purchased := true
    automatic := true }

/-- C9 witness: a concrete record that is both purchased and automatic
converts with its identifier kept and source `Purchasable` (the purchase
test wins). -/
theorem from_api_spec_witness :
    (Recipe.from_api exApiRecord).id = some exApiRecord.id ∧
    (Recipe.from_api exApiRecord).source = RecipeSource.Purchasable :=
  ⟨(from_api_spec exApiRecord).1, (from_api_spec exApiRecord).2.2.2.2.2.1 rfl⟩

theorem requires_trans {db : RecipeDb} {a b c : Nat}
    (h1 : Requires db a b) (h2 : Requires db b c) : Requires db a c := by
  induction h1 with
  | refl => exact h2
  | step r hr hj h ih => exact Requires.step r hr hj (ih h2)

theorem Requires.snoc {db : RecipeDb} {t o a : Nat} {rc : Recipe}
    (h : Requires db t o) (ho : getRecipe db o = some rc)
    (ha : a ∈ ingredientItemIds rc) : Requires db t a :=
  requires_trans h (Requires.step rc ho ha (Requires.refl a))

theorem getRecipe_output {db : RecipeDb} {j : Nat} {r : Recipe}
    (hwf : WFDb db) (h : getRecipe db j = some r) : r.output_item_id = j :=
  hwf.1 (j, r) (getRecipe_mem h)

theorem mark_internal_sound :
    ∀ fuel db (target item : Nat) stack s res, WFDb db →
      Requires db target item →
      mark_recursive_recipes_internal fuel db target item stack s =
        some res →
      ∀ x ∈ res, x ∈ s ∨ Recursive db x := by
  intro fuel
  induction fuel with
  | zero =>
    intro db target item stack s res hwf hreq h
    exact Option.noConfusion h
  | succ f ih =>
    intro db target item stack s res hwf hreq h
    rw [mark_recursive_recipes_internal] at h
    by_cases hmem : item ∈ s
    · rw [if_pos hmem] at h
      cases h
      exact fun x hx => Or.inl hx
    · rw [if_neg hmem] at h
      cases hg : getRecipe db item with
      | none =>
        simp only [hg] at h
        cases h
        exact fun x hx => Or.inl hx
      | some recipe =>
        simp only [hg] at h
        have hout : recipe.output_item_id = item := getRecipe_output hwf hg
        have loop : ∀ ings s2 res2, (∀ ing ∈ ings, ing ∈ recipe.ingredients) →
            markRecursiveFrom (mark_recursive_recipes_internal f db target)
              target recipe.output_item_id stack ings s2 = some res2 →
            ∀ x ∈ res2, x ∈ s2 ∨ Recursive db x := by
          intro ings
          induction ings with
          | nil =>
            intro s2 res2 hsub h2 x hx
            cases h2
            exact Or.inl hx
          | cons ing rest iih =>
            intro s2 res2 hsub h2 x hx
            rw [markRecursiveFrom] at h2
            by_cases hmatch : ing.item_id = target
            · rw [if_pos hmatch] at h2
              cases h2
              rcases Finset.mem_insert.mp hx with rfl | hx
              · refine Or.inr ?_
                rw [hout]
                exact ⟨recipe, hg,
                  ⟨target, List.mem_map.mpr
                    ⟨ing, hsub ing (List.mem_cons_self ing rest), hmatch⟩,
                      hreq⟩⟩
              · exact Or.inl hx
            · rw [if_neg hmatch] at h2
              by_cases hstack : ing.item_id ∈ stack
              · rw [if_pos hstack] at h2
                exact iih s2 res2
                  (fun i hi => hsub i (List.mem_cons_of_mem _ hi)) h2 x hx
              · rw [if_neg hstack] at h2
                cases hvis : mark_recursive_recipes_internal f db target
                    ing.item_id (stack ++ [ing.item_id]) s2 with
                | none =>
                  simp only [hvis] at h2
                  exact Option.noConfusion h2
                | some s3 =>
                  simp only [hvis] at h2
                  rcases iih s3 res2
                      (fun i hi => hsub i (List.mem_cons_of_mem _ hi)) h2
                      x hx with hx3 | hrec
                  · have hreq3 : Requires db target ing.item_id :=
                      hreq.snoc hg (List.mem_map.mpr
                        ⟨ing, hsub ing (List.mem_cons_self ing rest), rfl⟩)
                    rcases ih db target ing.item_id (stack ++ [ing.item_id])
                        s2 s3 hwf hreq3 hvis x hx3 with hx2 | hrec
                    · exact Or.inl hx2
                    · exact Or.inr hrec
                  · exact Or.inr hrec
        exact loop recipe.ingredients s res (fun i hi => hi) h

theorem markRecursiveList_sound :
    ∀ fuel db entries s res, WFDb db → (∀ e ∈ entries, e ∈ db) →
      markRecursiveList fuel db entries s = some res →
      ∀ x ∈ res, x ∈ s ∨ Recursive db x := by
  intro fuel db entries
  induction entries with
  | nil =>
    intro s res hwf hsub h x hx
    cases h
    exact Or.inl hx
  | cons e rest ih =>
    intro s res hwf hsub h x hx
    obtain ⟨k, rec⟩ := e
    rw [markRecursiveList] at h
    cases hint : mark_recursive_recipes_internal fuel db rec.output_item_id
        k [] s with
    | none =>
      simp only [hint] at h
      exact Option.noConfusion h
    | some s2 =>
      simp only [hint] at h
      have hkr : (k, rec) ∈ db := hsub (k, rec) (List.mem_cons_self _ rest)
      have hout : rec.output_item_id = k := hwf.1 (k, rec) hkr
      rcases ih s2 res hwf (fun e he => hsub e (List.mem_cons_of_mem _ he))
          h x hx with hx2 | hrec
      · rcases mark_internal_sound fuel db rec.output_item_id k [] s s2 hwf
            (by rw [hout]; exact Requires.refl k) hint x hx2 with hx1 | hrec
        · exact Or.inl hx1
        · exact Or.inr hrec
      · exact Or.inr hrec

theorem mark_recursive_recipes_sound_aux :
    ∀ fuel db s, WFDb db → mark_recursive_recipes fuel db = some s →
      ∀ x ∈ s, Recursive db x := by
  intro fuel db s hwf h x hx
  rcases markRecursiveList_sound fuel db db ∅ s hwf (fun e he => he) h x hx
    with hc | hc
  · cases hc
  · exact hc

theorem not_mem_keys_getRecipe_none {db : RecipeDb} {a : Nat}
    (h : a ∉ dbKeys db) : getRecipe db a = none := by
  cases hg : getRecipe db a with
  | none => rfl
  | some r => exact absurd (getRecipe_mem_keys hg) h

theorem mark_internal_adequate :
    ∀ fuel db (target item : Nat) stack s,
      (dbKeys db \ stack.toFinset).card + 2 ≤ fuel →
      ∃ res, mark_recursive_recipes_internal fuel db target item stack s =
        some res := by
  intro fuel
  induction fuel with
  | zero =>
    intro db target item stack s h
    exact absurd h (by omega)
  | succ f ih =>
    intro db target item stack s h
    rw [mark_recursive_recipes_internal]
    by_cases hmem : item ∈ s
    · rw [if_pos hmem]
      exact ⟨s, rfl⟩
    · rw [if_neg hmem]
      cases hg : getRecipe db item with
      | none =>
        simp only [hg]
        exact ⟨s, rfl⟩
      | some recipe =>
        simp only [hg]
        have loop : ∀ ings s2, ∃ res,
            markRecursiveFrom (mark_recursive_recipes_internal f db target)
              target recipe.output_item_id stack ings s2 = some res := by
          intro ings
          induction ings with
          | nil => exact fun s2 => ⟨s2, rfl⟩
          | cons ing rest iih =>
            intro s2
            rw [markRecursiveFrom]
            by_cases hmatch : ing.item_id = target
            · rw [if_pos hmatch]
              exact ⟨_, rfl⟩
            · rw [if_neg hmatch]
              by_cases hstack : ing.item_id ∈ stack
              · rw [if_pos hstack]
                exact iih s2
              · rw [if_neg hstack]
                by_cases hkey : ing.item_id ∈ dbKeys db
                · have herase :
                      dbKeys db \ (stack ++ [ing.item_id]).toFinset =
                        (dbKeys db \ stack.toFinset).erase ing.item_id := by
                    ext x
                    simp only [Finset.mem_sdiff, List.mem_toFinset,
                      List.mem_append, List.mem_singleton, Finset.mem_erase]
                    tauto
                  have hmemsd : ing.item_id ∈ dbKeys db \ stack.toFinset :=
                    Finset.mem_sdiff.mpr ⟨hkey,
                      fun hc => hstack (List.mem_toFinset.mp hc)⟩
                  have hpos : 0 < (dbKeys db \ stack.toFinset).card :=
                    Finset.card_pos.mpr ⟨_, hmemsd⟩
                  have hcard :
                      (dbKeys db \ (stack ++ [ing.item_id]).toFinset).card
                        + 2 ≤ f := by
                    rw [herase, Finset.card_erase_of_mem hmemsd]
                    omega
                  obtain ⟨s3, h3⟩ := ih db target ing.item_id
                    (stack ++ [ing.item_id]) s2 hcard
                  obtain ⟨res, hres⟩ := iih s3
                  exact ⟨res, by simp only [h3]; exact hres⟩
                · have hnone : getRecipe db ing.item_id = none :=
                    not_mem_keys_getRecipe_none hkey
                  obtain ⟨g, rfl⟩ : ∃ g, f = g + 1 := ⟨f - 1, by omega⟩
                  have h3 : mark_recursive_recipes_internal (g + 1) db target
                      ing.item_id (stack ++ [ing.item_id]) s2 = some s2 := by
                    rw [mark_recursive_recipes_internal]
                    by_cases hm2 : ing.item_id ∈ s2
                    · rw [if_pos hm2]
                    · rw [if_neg hm2]
                      simp only [hnone]
                  obtain ⟨res, hres⟩ := iih s2
                  exact ⟨res, by simp only [h3]; exact hres⟩
        exact loop recipe.ingredients s

theorem markRecursiveList_adequate :
    ∀ db entries fuel s, (dbKeys db).card + 2 ≤ fuel →
      ∃ res, markRecursiveList fuel db entries s = some res := by
  intro db entries
  induction entries with
  | nil => exact fun fuel s _ => ⟨s, rfl⟩
  | cons e rest ih =>
    intro fuel s h
    obtain ⟨k, rec⟩ := e
    rw [markRecursiveList]
    have hstack : (dbKeys db \ ([] : List Nat).toFinset).card + 2 ≤ fuel := by
      simpa using h
    obtain ⟨s2, h2⟩ := mark_internal_adequate fuel db rec.output_item_id k
      [] s hstack
    obtain ⟨res, hres⟩ := ih fuel s2 h
    exact ⟨res, by simp only [h2]; exact hres⟩

theorem mark_recursive_recipes_total :
    ∀ db, ∃ fuel s, mark_recursive_recipes fuel db = some s := by
  intro db
  obtain ⟨s, hs⟩ := markRecursiveList_adequate db db ((dbKeys db).card + 2)
    ∅ (Nat.le_refl _)
  exact ⟨_, s, hs⟩

theorem markRecursiveFrom_congr
    {visit1 visit2 : Nat → List Nat → Finset Nat → Option (Finset Nat)}
    (hv : ∀ i st s2 r2, visit1 i st s2 = some r2 → visit2 i st s2 = some r2)
    (target out : Nat) (stack : List Nat) :
    ∀ ings s res,
      markRecursiveFrom visit1 target out stack ings s = some res →
      markRecursiveFrom visit2 target out stack ings s = some res := by
  intro ings
  induction ings with
  | nil => exact fun s res h => h
  | cons ing rest ih =>
    intro s res h
    rw [markRecursiveFrom] at h ⊢
    by_cases hmatch : ing.item_id = target
    · rw [if_pos hmatch] at h ⊢
      exact h
    · rw [if_neg hmatch] at h ⊢
      by_cases hstack : ing.item_id ∈ stack
      · rw [if_pos hstack] at h ⊢
        exact ih s res h
      · rw [if_neg hstack] at h ⊢
        cases hvis : visit1 ing.item_id (stack ++ [ing.item_id]) s with
        | none =>
          simp only [hvis] at h
          exact Option.noConfusion h
        | some s3 =>
          simp only [hvis] at h
          simp only [hv _ _ _ _ hvis]
          exact ih s3 res h

theorem mark_internal_fuel_mono :
    ∀ fuel db (target item : Nat) stack s res,
      mark_recursive_recipes_internal fuel db target item stack s =
        some res →
      mark_recursive_recipes_internal (fuel + 1) db target item stack s =
        some res := by
  intro fuel
  induction fuel with
  | zero =>
    intro db target item stack s res h
    exact Option.noConfusion h
  | succ f ih =>
    intro db target item stack s res h
    rw [mark_recursive_recipes_internal] at h ⊢
    by_cases hmem : item ∈ s
    · rw [if_pos hmem] at h ⊢
      exact h
    · rw [if_neg hmem] at h ⊢
      cases hg : getRecipe db item with
      | none =>
        simp only [hg] at h ⊢
        exact h
      | some recipe =>
        simp only [hg] at h ⊢
        exact markRecursiveFrom_congr
          (fun i st s2 r2 hh => ih db target i st s2 r2 hh) target
          recipe.output_item_id stack recipe.ingredients s res h

theorem markRecursiveList_fuel_mono :
    ∀ fuel db entries s res,
      markRecursiveList fuel db entries s = some res →
      markRecursiveList (fuel + 1) db entries s = some res := by
  intro fuel db entries
  induction entries with
  | nil => exact fun s res h => h
  | cons e rest ih =>
    intro s res h
    obtain ⟨k, rec⟩ := e
    rw [markRecursiveList] at h ⊢
    cases hint : mark_recursive_recipes_internal fuel db rec.output_item_id
        k [] s with
    | none =>
      simp only [hint] at h
      exact Option.noConfusion h
    | some s2 =>
      simp only [hint] at h
      simp only [mark_internal_fuel_mono fuel db rec.output_item_id k [] s
        s2 hint]
      exact ih s2 res h

theorem mark_recursive_fuel_le {f g : Nat} {db : RecipeDb} {s : Finset Nat}
    (hle : f ≤ g) (h : mark_recursive_recipes f db = some s) :
    mark_recursive_recipes g db = some s := by
  induction g, hle using Nat.le_induction with
  | base => exact h
  | succ g hg ih => exact markRecursiveList_fuel_mono g db db ∅ s ih

theorem mark_recursive_unique {f g : Nat} {db : RecipeDb}
    {s s2 : Finset Nat} (h1 : mark_recursive_recipes f db = some s)
    (h2 : mark_recursive_recipes g db = some s2) : s = s2 := by
  rcases Nat.le_total f g with hle | hle
  · have := mark_recursive_fuel_le hle h1
    rw [this] at h2
    exact Option.some.inj h2
  · have := mark_recursive_fuel_le hle h2
    rw [this] at h1
    exact (Option.some.inj h1).symm

/-- C1 amended: under the keyed-by-output database invariant, every item
`mark_recursive_recipes` returns is genuinely recursive (there is a path
in the production graph from one of its own ingredients back to producing
it), hence on a database with no recursive item the returned set is
empty; and a completing run always exists.  The completeness direction of
the original claim fails on the code: on a two-cycle only one of the two
recursive items is returned (see the counterexample). -/
theorem mark_recursive_recipes_spec :
    (∀ db fuel s, WFDb db → mark_recursive_recipes fuel db = some s →
      ∀ x ∈ s, Recursive db x) ∧
    (∀ db fuel s, WFDb db → (∀ y, ¬ Recursive db y) →
      mark_recursive_recipes fuel db = some s → s = ∅) ∧
    (∀ db, ∃ fuel s, mark_recursive_recipes fuel db = some s) := by
  refine ⟨fun db fuel s hwf h =>
    mark_recursive_recipes_sound_aux fuel db s hwf h, ?_,
    mark_recursive_recipes_total⟩
  intro db fuel s hwf hno h
  exact Finset.eq_empty_iff_forall_not_mem.mpr (fun x hx =>
    hno x (mark_recursive_recipes_sound_aux fuel db s hwf h x hx))

/-- C1 counterexample: on the spec's own two-cycle database (item 10
requires item 20, item 20 requires item 10, so both are recursive) the
scan in stored order returns only the set containing 20 — item 10 is
missing, at every sufficient recursion depth — because a match inserts
the matched node's output item rather than the search origin, and the
top-level pruning then skips the outer scan that would have found 10. -/
theorem mark_recursive_recipes_counterexample :
    WFDb cycleDb ∧
    mark_recursive_recipes 5 cycleDb = some {20} ∧
    (10 : Nat) ∉ ({20} : Finset Nat) ∧
    ∀ fuel s, mark_recursive_recipes fuel cycleDb = some s →
      (10 : Nat) ∉ s := by
  refine ⟨by decide, by decide, by decide, ?_⟩
  intro fuel s h
  have h5 : mark_recursive_recipes 5 cycleDb = some {20} := by decide
  rw [mark_recursive_unique h h5]
  decide

/-- C1 witness: the sole item the two-cycle run returns is indeed
recursive. -/
theorem mark_recursive_recipes_spec_witness : Recursive cycleDb 20 :=
  mark_recursive_recipes_spec.1 cycleDb 5 {20} (by decide) (by decide) 20
    (by decide)

theorem mem_getRecipe {k : Nat} {r : Recipe} :
    ∀ db : RecipeDb, (db.map Prod.fst).Nodup → (k, r) ∈ db →
      getRecipe db k = some r := by
  intro db
  induction db with
  | nil =>
    intro _ hmem
    cases hmem
  | cons p rest ih =>
    intro hnd hmem
    obtain ⟨k1, r1⟩ := p
    simp only [List.map_cons, List.nodup_cons] at hnd
    rcases List.mem_cons.mp hmem with heq | hmem2
    · cases heq
      unfold getRecipe
      rw [List.find?_cons_of_pos]
      · rfl
      · simp
    · have hk1 : ¬((k1 == k) = true) := by
        simp only [beq_iff_eq]
        intro hkk
        subst hkk
        exact hnd.1 (List.mem_map.mpr ⟨(k1, r), hmem2, rfl⟩)
      unfold getRecipe
      rw [List.find?_cons_of_neg]
      · exact ih hnd.2 hmem2
      · exact hk1

theorem getRecipe_perm {db db' : RecipeDb}
    (hnd : (db.map Prod.fst).Nodup) (hperm : db.Perm db') (k : Nat) :
    getRecipe db k = getRecipe db' k := by
  have hnd' : (db'.map Prod.fst).Nodup :=
    (hperm.map Prod.fst).nodup_iff.mp hnd
  cases h : getRecipe db k with
  | some r =>
    exact (mem_getRecipe db' hnd'
      ((hperm.mem_iff).mp (getRecipe_mem h))).symm
  | none =>
    cases h2 : getRecipe db' k with
    | none => rfl
    | some r =>
      have := mem_getRecipe db hnd ((hperm.mem_iff).mpr (getRecipe_mem h2))
      rw [h] at this
      exact Option.noConfusion this

theorem requires_congr {db db' : RecipeDb}
    (hget : ∀ k, getRecipe db k = getRecipe db' k) {a b : Nat}
    (h : Requires db a b) : Requires db' a b := by
  induction h with
  | refl i => exact Requires.refl i
  | step r hr hj h ih => exact Requires.step r ((hget _) ▸ hr) hj ih

theorem recursive_congr {db db' : RecipeDb}
    (hget : ∀ k, getRecipe db k = getRecipe db' k) {x : Nat}
    (h : Recursive db x) : Recursive db' x := by
  obtain ⟨r, hl, j, hj, hreq⟩ := h
  exact ⟨r, (hget _) ▸ hl, j, hj, requires_congr hget hreq⟩

/-- C5 amended: the original order-independence claim fails on the code
(see the counterexample); what survives it is: on a well-formed database
with no recursive item, any two runs over any two enumeration orders both
return the empty set, hence agree. -/
theorem mark_recursive_order_independence :
    ∀ db db' (f g : Nat) s s2, WFDb db → db.Perm db' →
      (∀ y, ¬ Recursive db y) →
      mark_recursive_recipes f db = some s →
      mark_recursive_recipes g db' = some s2 → s = s2 := by
  intro db db' f g s s2 hwf hperm hno h1 h2
  have hnd' : (db'.map Prod.fst).Nodup :=
    (hperm.map Prod.fst).nodup_iff.mp hwf.2
  have hwf' : WFDb db' :=
    ⟨fun p hp => hwf.1 p ((hperm.mem_iff).mpr hp), hnd'⟩
  have hget := getRecipe_perm hwf.2 hperm
  have hno' : ∀ y, ¬ Recursive db' y := by
    intro y hy
    exact hno y (recursive_congr (fun k => (hget k).symm) hy)
  have hs : s = ∅ := Finset.eq_empty_iff_forall_not_mem.mpr (fun x hx =>
    hno x (mark_recursive_recipes_sound_aux f db s hwf h1 x hx))
  have hs2 : s2 = ∅ := Finset.eq_empty_iff_forall_not_mem.mpr (fun x hx =>
    hno' x (mark_recursive_recipes_sound_aux g db' s2 hwf' h2 x hx))
  rw [hs, hs2]

/-- C5 counterexample: the two-cycle database enumerated in its two
orders gives two different result sets ({20} in stored order, {10}
reversed), so the result of `mark_recursive_recipes` is not independent
of the outer iteration order. -/
theorem mark_recursive_order_dependence_counterexample :
    cycleDb.Perm cycleDbRev ∧
    mark_recursive_recipes 5 cycleDb = some {20} ∧
    mark_recursive_recipes 5 cycleDbRev = some {10} ∧
    ({20} : Finset Nat) ≠ ({10} : Finset Nat) := by
  exact ⟨List.Perm.swap _ _ _, by decide, by decide, by decide⟩

theorem chainDb_not_recursive : ∀ y, ¬ Recursive chainDb y := by
  have h30 : ∀ y, Requires chainDb 30 y → y = 30 := by
    intro y h
    cases h with
    | refl => rfl
    | step r hr hj h2 =>
      rw [(by decide : getRecipe chainDb 30 = none)] at hr
      exact Option.noConfusion hr
  have h20 : ∀ y, Requires chainDb 20 y → y = 20 ∨ y = 30 := by
    intro y h
    cases h with
    | refl => exact Or.inl rfl
    | step r hr hj h2 =>
      rename_i j
      rw [(by decide : getRecipe chainDb 20 = some exRecipe20)] at hr
      cases Option.some.inj hr
      have hj30 : j = 30 := by
        simp only [ingredientItemIds, exRecipe20, List.map_cons,
          List.map_nil, List.mem_singleton] at hj
        exact hj
      subst hj30
      exact Or.inr (h30 y h2)
  intro y hy
  obtain ⟨r, hl, j, hj, hreq⟩ := hy
  have hmem := getRecipe_mem hl
  rcases List.mem_cons.mp hmem with heq | hmem2
  · cases heq
    have hj20 : j = 20 := by
      simp only [ingredientItemIds, exRecipe10, List.map_cons,
        List.map_nil, List.mem_singleton] at hj
      exact hj
    subst hj20
    rcases h20 10 hreq with hc | hc <;> exact absurd hc (by decide)
  · rcases List.mem_cons.mp hmem2 with heq | hmem3
    · cases heq
      have hj30 : j = 30 := by
        simp only [ingredientItemIds, exRecipe20, List.map_cons,
          List.map_nil, List.mem_singleton] at hj
        exact hj
      subst hj30
      rcases h30 20 hreq with hc
      exact absurd hc (by decide)
    · cases hmem3

/-- The spec's example database enumerated in the opposite order. -/
def chainDbRev : RecipeDb := [(20, exRecipe20), (10, exRecipe10)]

/-- C5 amended witness: the acyclic example database and its reversal,
both runs returning the empty set. -/
theorem mark_recursive_order_independence_witness :
    chainDb.Perm chainDbRev ∧ (∅ : Finset Nat) = ∅ := by
  have hperm : chainDb.Perm chainDbRev := List.Perm.swap _ _ _
  exact ⟨hperm, mark_recursive_order_independence chainDb chainDbRev 4 4 ∅ ∅
    (by decide) hperm chainDb_not_recursive (by decide) (by decide)⟩

end Gw2Arbitrage
